import Mathlib

/-!
Verification of the stream-template renderer (`createStream`) and the agent
unenroll route handler of this repository.

The renderer itself is not present in the source excerpt (only its unit tests
are), so its data model and pipeline are modelled from the specification:
expression expansion of a logic-bearing text template (placeholders,
conditional blocks, iteration blocks) against a typed variable mapping,
followed by parsing the expanded text as a structured (YAML-like) document.
The unenroll route handler is embedded from the source file
`x-pack/plugins/ingest_manager/server/routes/agent/handlers.ts`.
-/

set_option maxRecDepth 100000

namespace StreamTemplate

set_option autoImplicit false

/-- Left curly brace character, written via its code point. -/
def lbrace : Char := Char.ofNat 123

/-- Right curly brace character, written via its code point. -/
def rbrace : Char := Char.ofNat 125

/-- Whitespace test used when trimming template and document text. -/
def isWsChar (c : Char) : Bool := c == ' ' || c == '\t' || c == '\r' || c == '\n'

/-- Drop leading whitespace characters. -/
def dropWsLead : List Char → List Char
  | [] => []
  | c :: cs => if isWsChar c then dropWsLead cs else c :: cs

/-- Trim whitespace from both ends of a character list. -/
def trimChars (cs : List Char) : List Char :=
  (dropWsLead (dropWsLead cs.reverse).reverse)

/-- Check whether the first list is a prefix of the second. -/
def startsWithSeq : List Char → List Char → Bool
  | [], _ => true
  | _ :: _, [] => false
  | p :: ps, c :: cs => p == c && startsWithSeq ps cs

/-- Modelled from the spec: the two error kinds of the renderer.
`templateSyntaxError` reports a malformed control-flow block in the template;
`documentParseError` reports text (the expanded template, or an embedded
yaml-typed variable value) that is not a valid structured document. -/
inductive RenderError where
  | templateSyntaxError : RenderError
  | documentParseError : RenderError
deriving DecidableEq

/-- Modelled from the spec: a structured document is a tree of mappings,
sequences and scalars, with scalar leaves converted to native types
(string, number, null, boolean) and mapping keys kept in insertion order. -/
inductive DocValue where
  | null : DocValue
  | bool (b : Bool) : DocValue
  | num (n : Int) : DocValue
  | str (s : String) : DocValue
  | seq (items : List DocValue) : DocValue
  | map (entries : List (String × DocValue)) : DocValue

/-- Lookup of a key in the entry list of a mapping document, first match wins. -/
def lookupPairs : List (String × DocValue) → String → Option DocValue
  | [], _ => none
  | (k, v) :: rest, x => if k = x then some v else lookupPairs rest x

/-- Lookup of a top-level key in a rendered mapping document. -/
def docLookup : DocValue → String → Option DocValue
  | .map entries, k => lookupPairs entries k
  | _, _ => none

mutual

/-- Modelled from the spec: inline (flow style) serialization of a structured
value, used to re-emit a parsed yaml-typed variable value at its placeholder. -/
def serFlow : DocValue → List Char
  | .null => "null".data
  | .bool true => "true".data
  | .bool false => "false".data
  | .num n => (toString n).data
  | .str s => '"' :: s.data ++ ['"']
  | .seq l => '[' :: serFlowList l ++ [']']
  | .map l => lbrace :: serFlowMap l ++ [rbrace]

/-- Flow serialization of sequence items, comma separated. -/
def serFlowList : List DocValue → List Char
  | [] => []
  | [x] => serFlow x
  | x :: y :: xs => serFlow x ++ ',' :: ' ' :: serFlowList (y :: xs)

/-- Flow serialization of mapping entries, comma separated. -/
def serFlowMap : List (String × DocValue) → List Char
  | [] => []
  | [(k, v)] => k.data ++ ':' :: ' ' :: serFlow v
  | (k, v) :: y :: xs => k.data ++ ':' :: ' ' :: serFlow v ++ ',' :: ' ' :: serFlowMap (y :: xs)

end

/-- Numeric value of a decimal digit character. -/
def digitVal (c : Char) : Nat := c.toNat - 48

/-- Decimal digit test. -/
def isDigitChar (c : Char) : Bool := '0' ≤ c && c ≤ '9'

/-- Accumulate a decimal digit list into a natural number. -/
def digitsToNat : Nat → List Char → Nat
  | acc, [] => acc
  | acc, c :: cs => digitsToNat (acc * 10 + digitVal c) cs

/-- Parse an optionally negated decimal integer literal. -/
def parseIntChars (cs : List Char) : Option Int :=
  match cs with
  | [] => none
  | '-' :: rest =>
    if rest ≠ [] && rest.all isDigitChar then some (-(digitsToNat 0 rest : Int)) else none
  | _ => if cs.all isDigitChar then some (digitsToNat 0 cs) else none

/-- Modelled from the spec: conversion of a plain scalar literal to its native
type: explicit `null`/`~` become null, booleans and integers are converted,
everything else (including the empty scalar) stays a string. -/
def scalarOf (cs : List Char) : DocValue :=
  if cs = "null".data then .null
  else if cs = ['~'] then .null
  else if cs = "true".data then .bool true
  else if cs = "false".data then .bool false
  else match parseIntChars cs with
    | some n => .num n
    | none => .str (String.mk cs)

/-- One logical line of document text: leading-space count and trimmed content. -/
structure YLine where
  indent : Nat
  content : List Char
deriving DecidableEq

/-- Split a character list into lines at newline characters. -/
def splitLinesAux : List Char → List Char → List (List Char)
  | acc, [] => [acc.reverse]
  | acc, c :: cs => if c = '\n' then acc.reverse :: splitLinesAux [] cs else splitLinesAux (c :: acc) cs

/-- Count the leading space characters of a raw line. -/
def countIndent : List Char → Nat
  | [] => 0
  | c :: cs => if c = ' ' then countIndent cs + 1 else 0

/-- Keep the non-blank raw lines, recording indent and trimmed content. -/
def mkLines : List (List Char) → List YLine
  | [] => []
  | l :: ls =>
    let t := trimChars l
    if t = [] then mkLines ls else ⟨countIndent l, t⟩ :: mkLines ls

/-- Test whether trimmed line content is a sequence item (a dash followed by a
space, or a lone dash). -/
def isDashLine : List Char → Bool
  | ['-'] => true
  | '-' :: c :: _ => c == ' '
  | _ => false

/-- Split trimmed line content at the first colon that ends the line or is
followed by a space, yielding the raw key part and the trimmed value part. -/
def colonSplit : List Char → Option (List Char × List Char)
  | [] => none
  | c :: cs =>
    if c = ':' then
      match cs with
      | [] => some ([], [])
      | c2 :: _ =>
        if c2 = ' ' then some ([], dropWsLead cs)
        else (colonSplit cs).map (fun p => (c :: p.1, p.2))
    else (colonSplit cs).map (fun p => (c :: p.1, p.2))

/-- Take the longest prefix of lines that are indented strictly more than `i`. -/
def spanIndentGT (i : Nat) : List YLine → (List YLine × List YLine)
  | [] => ([], [])
  | l :: ls =>
    if i < l.indent then
      let p := spanIndentGT i ls
      (l :: p.1, p.2)
    else ([], l :: ls)

/-- Read characters up to the next occurrence of `q`, dropping it. -/
def readUntilChar (q : Char) : List Char → Option (List Char × List Char)
  | [] => none
  | c :: cs => if c = q then some ([], cs) else (readUntilChar q cs).map (fun p => (c :: p.1, p.2))

/-- Flow-context delimiter test: comma, closing bracket, closing brace. -/
def isFlowDelim (c : Char) : Bool := c == ',' || c == ']' || c == rbrace

/-- Read a plain flow token up to the next flow delimiter. -/
def spanTok : List Char → (List Char × List Char)
  | [] => ([], [])
  | c :: cs =>
    if isFlowDelim c then ([], c :: cs)
    else
      let p := spanTok cs
      (c :: p.1, p.2)

/-- Read characters up to the next colon, keeping it in the remainder. -/
def spanUntilColon : List Char → (List Char × List Char)
  | [] => ([], [])
  | c :: cs =>
    if c = ':' then ([], c :: cs)
    else
      let p := spanUntilColon cs
      (c :: p.1, p.2)

/-- Parsing mode of the flow (inline) document parser. -/
inductive FMode where
  | val : FMode
  | seqItems (acc : List DocValue) : FMode
  | seqAfter (acc : List DocValue) : FMode
  | mapItems (acc : List (String × DocValue)) : FMode
  | mapAfter (acc : List (String × DocValue)) : FMode

/-- Modelled from the spec: parser for inline (flow style) document values:
bracketed sequences, braced mappings, quoted strings and plain scalars.
The fuel argument bounds recursion depth; callers supply enough fuel. -/
def parseF : Nat → FMode → List Char → Except RenderError (DocValue × List Char)
  | 0, _, _ => .error .documentParseError
  | fuel + 1, .val, cs0 =>
    match dropWsLead cs0 with
    | '[' :: rest => parseF fuel (.seqItems []) rest
    | '"' :: rest =>
      match readUntilChar '"' rest with
      | some (s, rest2) => .ok (.str (String.mk s), rest2)
      | none => .error .documentParseError
    | '\'' :: rest =>
      match readUntilChar '\'' rest with
      | some (s, rest2) => .ok (.str (String.mk s), rest2)
      | none => .error .documentParseError
    | c :: rest =>
      if c = lbrace then parseF fuel (.mapItems []) rest
      else
        let p := spanTok (c :: rest)
        .ok (scalarOf (trimChars p.1), p.2)
    | [] => .ok (.str "", [])
  | fuel + 1, .seqItems acc, cs0 =>
    match dropWsLead cs0 with
    | ']' :: rest => .ok (.seq acc.reverse, rest)
    | cs => do
      let (v, rest) ← parseF fuel .val cs
      parseF fuel (.seqAfter (v :: acc)) rest
  | fuel + 1, .seqAfter acc, cs0 =>
    match dropWsLead cs0 with
    | ']' :: rest => .ok (.seq acc.reverse, rest)
    | ',' :: rest => parseF fuel (.seqItems acc) rest
    | _ => .error .documentParseError
  | fuel + 1, .mapItems acc, cs0 =>
    match dropWsLead cs0 with
    | c :: rest =>
      if c = rbrace then .ok (.map acc.reverse, rest)
      else
        match spanUntilColon (c :: rest) with
        | (key, ':' :: rest2) => do
          let (v, rest3) ← parseF fuel .val rest2
          parseF fuel (.mapAfter ((String.mk (trimChars key), v) :: acc)) rest3
        | _ => .error .documentParseError
    | [] => .error .documentParseError
  | fuel + 1, .mapAfter acc, cs0 =>
    match dropWsLead cs0 with
    | c :: rest =>
      if c = rbrace then .ok (.map acc.reverse, rest)
      else if c = ',' then parseF fuel (.mapItems acc) rest
      else .error .documentParseError
    | [] => .error .documentParseError

/-- Parse a complete inline value: run the flow parser and require that only
whitespace remains. -/
def parseInline (cs : List Char) : Except RenderError DocValue := do
  let p ← parseF (2 * cs.length + 8) .val cs
  if trimChars p.2 = [] then pure p.1 else .error .documentParseError

/-- Parsing context of the indentation-based block document parser. -/
inductive YCtx where
  | val (lns : List YLine) : YCtx
  | seqLoop (i : Nat) (lns : List YLine) (acc : List DocValue) : YCtx
  | mapLoop (i : Nat) (lns : List YLine) (acc : List (String × DocValue)) : YCtx

/-- Modelled from the spec: indentation-based parser for the structured
document grammar (mappings, sequences, scalars).  A mapping key with no inline
value and no indented sub-block maps to the empty-string scalar; an explicit
`null` or `~` maps to null.  The fuel argument bounds recursion depth; the
entry point supplies enough fuel for the input. -/
def parseY : Nat → YCtx → Except RenderError DocValue
  | 0, _ => .error .documentParseError
  | _ + 1, .val [] => .ok .null
  | fuel + 1, .val (l :: ls) =>
    if isDashLine l.content then parseY fuel (.seqLoop l.indent (l :: ls) [])
    else
      match colonSplit l.content with
      | some _ => parseY fuel (.mapLoop l.indent (l :: ls) [])
      | none =>
        match ls with
        | [] => .ok (scalarOf l.content)
        | _ :: _ => .error .documentParseError
  | _ + 1, .seqLoop _ [] acc => .ok (.seq acc.reverse)
  | fuel + 1, .seqLoop i (l :: ls) acc =>
    if l.indent = i ∧ isDashLine l.content then
      let spaces := countIndent l.content.tail
      let head := l.content.tail.drop spaces
      let p := spanIndentGT i ls
      if head = [] then do
        let v ← parseY fuel (.val p.1)
        parseY fuel (.seqLoop i p.2 (v :: acc))
      else do
        let v ← parseY fuel (.val (⟨i + 1 + spaces, head⟩ :: p.1))
        parseY fuel (.seqLoop i p.2 (v :: acc))
    else .error .documentParseError
  | _ + 1, .mapLoop _ [] acc => .ok (.map acc.reverse)
  | fuel + 1, .mapLoop i (l :: ls) acc =>
    if l.indent = i then
      match colonSplit l.content with
      | some kv =>
        let p := spanIndentGT i ls
        if kv.2 = [] then
          if p.1 = [] then
            parseY fuel (.mapLoop i p.2 ((String.mk (trimChars kv.1), .str "") :: acc))
          else do
            let v ← parseY fuel (.val p.1)
            parseY fuel (.mapLoop i p.2 ((String.mk (trimChars kv.1), v) :: acc))
        else
          if p.1 = [] then do
            let v ← parseInline kv.2
            parseY fuel (.mapLoop i p.2 ((String.mk (trimChars kv.1), v) :: acc))
          else .error .documentParseError
      | none => .error .documentParseError
    else .error .documentParseError

/-- Total content length of a line list, used to size parser fuel. -/
def linesLen (lns : List YLine) : Nat :=
  lns.foldr (fun l a => l.content.length + a) 0

/-- Modelled from the spec: parse a text blob as a structured document.
Splits into lines, drops blank lines, and runs the block parser. -/
def yamlParse (cs : List Char) : Except RenderError DocValue :=
  let lns := mkLines (splitLinesAux [] cs)
  parseY (3 * linesLen lns + 3 * lns.length + 9) (.val lns)

/-- Modelled from the spec: the declared type of a variable, directing how its
raw value is serialized before template substitution. -/
inductive VarType where
  | plain : VarType
  | password : VarType
  | yaml : VarType
  | bool : VarType
  | integer : VarType
  | text : VarType
  | list : VarType
deriving DecidableEq

/-- Modelled from the spec: a variable carries a declared type and a raw value. -/
structure Variable where
  type : VarType
  value : DocValue

/-- Lookup of a variable by name in the variable mapping; dotted names are
matched literally against the mapping key, first match wins. -/
def lookupVar : List (String × Variable) → String → Option Variable
  | [], _ => none
  | (k, v) :: rest, x => if k = x then some v else lookupVar rest x

/-- Modelled from the spec: convert one variable for substitution.  The raw
value of a yaml-typed variable is itself parsed as structured data (a hard
`documentParseError` when malformed); other types keep their value. -/
def convertOne (v : Variable) : Except RenderError DocValue :=
  match v.type with
  | .yaml =>
    match v.value with
    | .str raw => yamlParse raw.data
    | _ => .error .documentParseError
  | _ => .ok v.value

/-- Convert every variable of the mapping, in order, keeping names. -/
def convertVars : List (String × Variable) → Except RenderError (List (String × DocValue))
  | [] => .ok []
  | (k, v) :: rest => do
    let d ← convertOne v
    let env ← convertVars rest
    .ok ((k, d) :: env)

/-- Tokens of the template language: literal text, block openers and closers,
and plain placeholders. -/
inductive Tok where
  | text (s : List Char) : Tok
  | openIf (x : String) : Tok
  | openEach (x : String) : Tok
  | closeIf : Tok
  | closeEach : Tok
  | hole (x : String) : Tok

/-- Classify the trimmed inner text of a double-brace tag. -/
def classifyTag (inner : List Char) : Tok :=
  if startsWithSeq "#if ".data (trimChars inner) then
    .openIf (String.mk (trimChars ((trimChars inner).drop 4)))
  else if startsWithSeq "#each ".data (trimChars inner) then
    .openEach (String.mk (trimChars ((trimChars inner).drop 6)))
  else if trimChars inner = "/if".data then .closeIf
  else if trimChars inner = "/each".data then .closeEach
  else .hole (String.mk (trimChars inner))

/-- Modelled from the spec: template scanner.  The first list argument
accumulates the current run (reversed); the boolean is true inside a tag.
A tag opened by a double brace and never closed is a syntax error. -/
def tokAux : Bool → List Char → List Char → Except RenderError (List Tok)
  | false, acc, [] => .ok [.text acc.reverse]
  | true, _, [] => .error .templateSyntaxError
  | false, acc, [c] => .ok [.text (c :: acc).reverse]
  | true, _, [_] => .error .templateSyntaxError
  | false, acc, c1 :: c2 :: cs =>
    if c1 = lbrace ∧ c2 = lbrace then
      (tokAux true [] cs).map (fun ts => .text acc.reverse :: ts)
    else tokAux false (c1 :: acc) (c2 :: cs)
  | true, acc, c1 :: c2 :: cs =>
    if c1 = rbrace ∧ c2 = rbrace then
      (tokAux false [] cs).map (fun ts => classifyTag acc.reverse :: ts)
    else tokAux true (c1 :: acc) (c2 :: cs)

/-- Scan a template into tokens. -/
def tokenize (cs : List Char) : Except RenderError (List Tok) := tokAux false [] cs

/-- Nodes of the parsed template: literal text, placeholders, conditional
blocks and iteration blocks. -/
inductive TNode where
  | lit (s : List Char) : TNode
  | hole (x : String) : TNode
  | cond (x : String) (body : List TNode) : TNode
  | iter (x : String) (body : List TNode) : TNode

/-- One open block while building the template tree: its kind, guard name and
the nodes accumulated before it opened. -/
structure BFrame where
  isIf : Bool
  name : String
  acc : List TNode

/-- Modelled from the spec: build the template tree from the token stream with
an explicit stack of open blocks.  An unterminated or mismatched block is a
`templateSyntaxError`. -/
def buildAux : List TNode → List BFrame → List Tok → Except RenderError (List TNode)
  | acc, [], [] => .ok acc.reverse
  | _, _ :: _, [] => .error .templateSyntaxError
  | acc, stk, .text s :: ts => buildAux (.lit s :: acc) stk ts
  | acc, stk, .hole x :: ts => buildAux (.hole x :: acc) stk ts
  | acc, stk, .openIf x :: ts => buildAux [] (⟨true, x, acc⟩ :: stk) ts
  | acc, stk, .openEach x :: ts => buildAux [] (⟨false, x, acc⟩ :: stk) ts
  | acc, ⟨true, x, outer⟩ :: stk, .closeIf :: ts => buildAux (.cond x acc.reverse :: outer) stk ts
  | _, _, .closeIf :: _ => .error .templateSyntaxError
  | acc, ⟨false, x, outer⟩ :: stk, .closeEach :: ts => buildAux (.iter x acc.reverse :: outer) stk ts
  | _, _, .closeEach :: _ => .error .templateSyntaxError

/-- Parse a template into its node tree. -/
def parseTemplate (cs : List Char) : Except RenderError (List TNode) := do
  let ts ← tokenize cs
  buildAux [] [] ts

/-- Expansion environment: names bound to converted document values. -/
abbrev Env := List (String × DocValue)

/-- Lookup in the expansion environment; names are matched literally, first
match wins. -/
def lookupEnv : Env → String → Option DocValue
  | [], _ => none
  | (k, v) :: rest, x => if k = x then some v else lookupEnv rest x

/-- Modelled from the spec: truthiness of a guard resolution under
document-language rules — the variable must exist and be non-null, a
non-empty string, a non-empty sequence, or a true boolean. -/
def isTruthy : Option DocValue → Bool
  | none => false
  | some .null => false
  | some (.bool b) => b
  | some (.num _) => true
  | some (.str s) => !(s = "")
  | some (.seq l) => !l.isEmpty
  | some (.map m) => !m.isEmpty

/-- Modelled from the spec: serialization of a resolved value at a plain
placeholder.  Strings are inserted as plain text (a password-typed variable's
value is a plain, possibly empty string), null renders as empty, and
structured values (in particular parsed yaml-typed values) are re-emitted
inline in flow style. -/
def serializeVal : DocValue → List Char
  | .null => []
  | .str s => s.data
  | .bool b => serFlow (.bool b)
  | .num n => serFlow (.num n)
  | .seq l => serFlow (.seq l)
  | .map m => serFlow (.map m)

/-- Resolve a plain placeholder: an absent variable renders as the empty
string. -/
def substFor (env : Env) (x : String) : List Char :=
  match lookupEnv env x with
  | none => []
  | some v => serializeVal v

mutual

/-- Modelled from the spec: expansion of one template node.  A conditional
block is included iff its guard is truthy; an iteration block instantiates its
body once per element of a sequence-valued variable, binding `this` to the
element, and contributes nothing when the variable is absent or not a
sequence. -/
def expandNode (env : Env) : TNode → List Char
  | .lit s => s
  | .hole x => substFor env x
  | .cond x body => if isTruthy (lookupEnv env x) then expandNodes env body else []
  | .iter x body =>
    match lookupEnv env x with
    | some (.seq elems) => (elems.map (fun e => expandNodes (("this", e) :: env) body)).flatten
    | _ => []

/-- Expansion of a node list, concatenated in order. -/
def expandNodes (env : Env) : List TNode → List Char
  | [] => []
  | n :: ns => expandNode env n ++ expandNodes env ns

end

/-- Parse a template and expand it against an environment. -/
def renderText (env : Env) (cs : List Char) : Except RenderError (List Char) := do
  let ns ← parseTemplate cs
  .ok (expandNodes env ns)

/-- Modelled from the spec: `createStream` — convert the variable mapping
(parsing yaml-typed values), expand the template, and parse the expanded text
as a structured document. -/
def createStream (vars : List (String × Variable)) (tpl : String) : Except RenderError DocValue := do
  let env ← convertVars vars
  let expanded ← renderText env tpl.data
  yamlParse expanded

/-- Opening double brace as a string, for building template literals. -/
def oBr : String := String.mk [lbrace, lbrace]

/-- Closing double brace as a string, for building template literals. -/
def cBr : String := String.mk [rbrace, rbrace]

/-- Conditional-block opening tag. -/
def tagIf (x : String) : String := oBr ++ "#if " ++ x ++ cBr

/-- Conditional-block closing tag. -/
def tagEndIf : String := oBr ++ "/if" ++ cBr

/-- Iteration-block opening tag. -/
def tagEach (x : String) : String := oBr ++ "#each " ++ x ++ cBr

/-- Iteration-block closing tag. -/
def tagEndEach : String := oBr ++ "/each" ++ cBr

/-- Plain placeholder tag. -/
def ph (x : String) : String := oBr ++ x ++ cBr

/-- Characters allowed in a variable name referenced by a tag: alphanumerics,
dots and underscores.  Dotted names are single identifiers. -/
def nameChar (c : Char) : Bool := c.isAlphanum || c == '.' || c == '_'

/-- A well-formed variable name: non-empty and made of name characters only. -/
def validName (s : String) : Bool := !s.data.isEmpty && s.data.all nameChar

/-- Text that contains no brace characters, hence no tag delimiters. -/
def braceFreeChars (cs : List Char) : Bool := cs.all (fun c => c != lbrace && c != rbrace)

/-- Characters of an unquoted plain scalar that survives a parse round trip. -/
def plainChar (c : Char) : Bool :=
  c.isAlphanum || c == '/' || c == '.' || c == '_' || c == '-' || c == '$'

/-- A string that parses back from expanded text as the same string scalar:
non-empty, of plain characters, not a dash item, not a null/boolean literal
and not an integer literal. -/
def isPlainScalarStr (s : String) : Bool :=
  !s.data.isEmpty && s.data.all plainChar && !isDashLine s.data &&
  !(s == "null") && !(s == "~") && !(s == "true") && !(s == "false") &&
  (parseIntChars s.data).isNone

/-- Split a character list into the dot-separated segments of a dotted name. -/
def splitOnDotChars : List Char → List Char → List String
  | acc, [] => [String.mk acc.reverse]
  | acc, c :: cs =>
    if c = '.' then String.mk acc.reverse :: splitOnDotChars [] cs
    else splitOnDotChars (c :: acc) cs

/-- Defined from the spec's words, as the interpretation of dotted names that
the renderer does not use: split the name at the dots and descend through
nested mapping values.  Contrasted with the literal matching of `lookupEnv`. -/
def nestedPathLookup (env : Env) (x : String) : Option DocValue :=
  match splitOnDotChars [] x.data with
  | [] => none
  | p :: ps => ps.foldl (fun acc q => acc.bind (fun d => docLookup d q)) (lookupEnv env p)

/-- Variable mapping of the log-input scenario observed in the unit test. -/
def varsLog : List (String × Variable) :=
  [("paths", ⟨.plain, .seq [.str "/usr/local/var/log/nginx/access.log"]⟩),
   ("password", ⟨.password, .str ""⟩)]

/-- Template of the log-input scenario observed in the unit test. -/
def tplLog : String :=
  "\n    input: log\n    paths:\n    " ++ tagEach "paths" ++ "\n      - " ++ ph "this" ++
  "\n    " ++ tagEndEach ++
  "\n    exclude_files: [\".gz$\"]\n    processors:\n      - add_locale: ~\n    password: " ++
  ph "password" ++ "\n    " ++ tagIf "password" ++ "\n    hidden_password: " ++ ph "password" ++
  "\n    " ++ tagEndIf ++ "\n      "

/-- Expected rendered document of the log-input scenario. -/
def docLog : DocValue :=
  .map [("input", .str "log"),
        ("paths", .seq [.str "/usr/local/var/log/nginx/access.log"]),
        ("exclude_files", .seq [.str ".gz$"]),
        ("processors", .seq [.map [("add_locale", .null)]]),
        ("password", .str "")]

/-- Variable mapping of the redis yaml-variable scenario observed in the unit
test. -/
def varsRedis : List (String × Variable) :=
  [("key.patterns", ⟨.yaml, .str "\n        - limit: 20\n          pattern: '*'\n        "⟩),
   ("password", ⟨.password, .str ""⟩)]

/-- Template of the redis yaml-variable scenario. -/
def tplRedis : String :=
  "\n    input: redis/metrics\n    metricsets: [\"key\"]\n    test: null\n    password: " ++
  ph "password" ++ "\n    " ++ tagIf "key.patterns" ++ "\n    key.patterns: " ++ ph "key.patterns" ++
  "\n    " ++ tagEndIf ++ "\n      "

/-- Expected rendered document of the redis scenario, keys in insertion order. -/
def docRedis : DocValue :=
  .map [("input", .str "redis/metrics"),
        ("metricsets", .seq [.str "key"]),
        ("test", .null),
        ("password", .str ""),
        ("key.patterns", .seq [.map [("limit", .num 20), ("pattern", .str "*")]])]

/-- Variable mapping holding both a literal dotted key and a nested mapping
that a nested-path interpretation would reach instead. -/
def varsDotted : List (String × Variable) :=
  [("key", ⟨.plain, .map [("patterns", .str "WRONG")]⟩),
   ("key.patterns", ⟨.plain, .str "RIGHT"⟩)]

/-- Environment obtained by converting `varsDotted`. -/
def envDotted : Env :=
  [("key", .map [("patterns", .str "WRONG")]),
   ("key.patterns", .str "RIGHT")]

/-- Template with a placeholder naming the dotted identifier. -/
def tplDotted : String := "key.patterns: " ++ ph "key.patterns" ++ "\n"

/-- Variable mapping with a yaml-typed variable whose raw value is malformed
(a sequence item followed by a mapping entry at the same level). -/
def varsYamlBad : List (String × Variable) := [("k", ⟨.yaml, .str "- a\nb: c"⟩)]

/-- Canonical iteration template: a `paths` key filled by an each block. -/
def tplEachPaths : String :=
  "paths:\n" ++ tagEach "paths" ++ "\n  - " ++ ph "this" ++ "\n" ++ tagEndEach ++ "\n"

/-- Variable mapping binding `paths` to a sequence of string elements. -/
def seqVars (l : List String) : List (String × Variable) :=
  [("paths", ⟨.plain, .seq (l.map .str)⟩)]

end StreamTemplate

namespace UnenrollHandler

set_option autoImplicit false

/-- Agent record as used by the unenroll handler: its id and active flag. -/
structure Agent where
  id : String
  active : Bool

/-- Per-agent outcome returned by the external `AgentService.unenrollAgents`. -/
structure SvcResult where
  success : Bool
  id : String
  error : Option String

/-- Per-agent entry of the response body built by the handler. -/
structure ResultItem where
  success : Bool
  id : String
  action : String
  error : Option String

/-- Request body of the unenroll route: an optional kuery and optional ids. -/
structure ReqBody where
  kuery : Option String
  ids : Option (List String)

/-- Response body of the unenroll route. -/
structure UnenrollResponse where
  results : List ResultItem
  success : Bool

/-- Truthiness of the optional kuery, as the JavaScript `if (kuery)` guard:
absent and empty strings are falsy. -/
def kueryTruthy : Option String → Bool
  | none => false
  | some s => !(s == "")

/-- Pagination loop of the handler: `listAgents` is consulted page by page
(with `showInactive: true`) until it returns an empty page; each fetched
page contributes the ids of its agents whose `active` flag is true.
`pages` lists the successive service results. -/
def collectActiveIds : List (List Agent) → List String
  | [] => []
  | pg :: rest =>
    if pg.isEmpty then []
    else (pg.filter (fun a => a.active)).map (fun a => a.id) ++ collectActiveIds rest

/-- Ids to unenroll: the ids of the request body (defaulting to none), then,
when a kuery is supplied, the active agents matched by the kuery. -/
def toUnenrollIds (body : ReqBody) (pages : List (List Agent)) : List String :=
  (body.ids.getD []) ++ (if kueryTruthy body.kuery then collectActiveIds pages else [])

/-- The unenroll handler on its success path: unenroll the collected ids
through the service, tag every per-agent result with action `unenrolled`,
and report overall success iff every per-agent result succeeded. -/
def postAgentsUnenrollHandler (body : ReqBody) (pages : List (List Agent))
    (svc : List String → List SvcResult) : UnenrollResponse :=
  let results := (svc (toUnenrollIds body pages)).map
    (fun r => ⟨r.success, r.id, "unenrolled", r.error⟩)
  ⟨results, results.all (fun r => r.success)⟩

end UnenrollHandler

namespace StreamTemplate

theorem exceptBind_err {α β : Type} {x : Except RenderError α} {f : α → Except RenderError β}
    {e : RenderError} (h : (x >>= f) = .error e) :
    x = .error e ∨ ∃ a, x = .ok a ∧ f a = .error e := by
  cases x with
  | error e2 =>
    left
    have : e2 = e := by simpa [Bind.bind, Except.bind] using h
    rw [this]
  | ok a =>
    right
    exact ⟨a, rfl, by simpa [Bind.bind, Except.bind] using h⟩

theorem exceptBind_ok {α β : Type} {x : Except RenderError α} {f : α → Except RenderError β}
    {b : β} (h : (x >>= f) = .ok b) :
    ∃ a, x = .ok a ∧ f a = .ok b := by
  cases x with
  | error e2 => simp [Bind.bind, Except.bind] at h
  | ok a => exact ⟨a, rfl, by simpa [Bind.bind, Except.bind] using h⟩

theorem tokAux_err : ∀ (n : Nat) (cs : List Char), cs.length ≤ n →
    ∀ (b : Bool) (acc : List Char) (e : RenderError),
    tokAux b acc cs = .error e → e = .templateSyntaxError := by
  intro n
  induction n with
  | zero =>
    intro cs hle b acc e h
    have hnil : cs = [] := List.eq_nil_of_length_eq_zero (Nat.le_zero.mp hle)
    subst hnil
    cases b <;> simp_all [tokAux]
  | succ n ihn =>
    intro cs hle b acc e h
    match cs with
    | [] => cases b <;> simp_all [tokAux]
    | [c] => cases b <;> simp_all [tokAux]
    | c1 :: c2 :: rest =>
      have hr2 : (c2 :: rest).length ≤ n := by
        simp only [List.length_cons] at hle ⊢; omega
      have hr1 : rest.length ≤ n := by
        simp only [List.length_cons] at hle; omega
      cases b with
      | false =>
        simp only [tokAux] at h
        split at h
        · cases hx : tokAux true [] rest with
          | error e2 =>
            rw [hx] at h
            simp only [Except.map, Except.error.injEq] at h
            rw [← h]
            exact ihn rest hr1 true [] e2 hx
          | ok ts => rw [hx] at h; simp [Except.map] at h
        · exact ihn (c2 :: rest) hr2 false (c1 :: acc) e h
      | true =>
        simp only [tokAux] at h
        split at h
        · cases hx : tokAux false [] rest with
          | error e2 =>
            rw [hx] at h
            simp only [Except.map, Except.error.injEq] at h
            rw [← h]
            exact ihn rest hr1 false [] e2 hx
          | ok ts => rw [hx] at h; simp [Except.map] at h
        · exact ihn (c2 :: rest) hr2 true (c1 :: acc) e h

theorem buildAux_err : ∀ (ts : List Tok) (acc : List TNode) (stk : List BFrame) (e : RenderError),
    buildAux acc stk ts = .error e → e = .templateSyntaxError := by
  intro ts
  induction ts with
  | nil =>
    intro acc stk e h
    cases stk <;> simp_all [buildAux]
  | cons t ts ih =>
    intro acc stk e h
    cases t with
    | text s =>
      simp only [buildAux] at h
      exact ih _ _ _ h
    | hole x =>
      simp only [buildAux] at h
      exact ih _ _ _ h
    | openIf x =>
      simp only [buildAux] at h
      exact ih _ _ _ h
    | openEach x =>
      simp only [buildAux] at h
      exact ih _ _ _ h
    | closeIf =>
      cases stk with
      | nil => simp_all [buildAux]
      | cons fr stk =>
        obtain ⟨bIf, x, outer⟩ := fr
        cases bIf with
        | true =>
          simp only [buildAux] at h
          exact ih _ _ _ h
        | false => simp_all [buildAux]
    | closeEach =>
      cases stk with
      | nil => simp_all [buildAux]
      | cons fr stk =>
        obtain ⟨bIf, x, outer⟩ := fr
        cases bIf with
        | false =>
          simp only [buildAux] at h
          exact ih _ _ _ h
        | true => simp_all [buildAux]

theorem parseTemplate_err (cs : List Char) (e : RenderError)
    (h : parseTemplate cs = .error e) : e = .templateSyntaxError := by
  unfold parseTemplate at h
  rcases exceptBind_err h with h1 | ⟨ts, hts, h2⟩
  · exact tokAux_err cs.length cs le_rfl false [] e h1
  · exact buildAux_err ts [] [] e h2

theorem parseF_err : ∀ (fuel : Nat) (m : FMode) (cs : List Char) (e : RenderError),
    parseF fuel m cs = .error e → e = .documentParseError := by
  intro fuel
  induction fuel with
  | zero =>
    intro m cs e h
    simp only [parseF, Except.error.injEq] at h
    exact h.symm
  | succ fuel ih =>
    intro m cs e h
    cases m with
    | val =>
      simp only [parseF] at h
      split at h
      · exact ih _ _ _ h
      · split at h
        · exact absurd h (by simp)
        · simp only [Except.error.injEq] at h; exact h.symm
      · split at h
        · exact absurd h (by simp)
        · simp only [Except.error.injEq] at h; exact h.symm
      · split at h
        · exact ih _ _ _ h
        · exact absurd h (by simp)
      · exact absurd h (by simp)
    | seqItems acc =>
      simp only [parseF] at h
      split at h
      · exact absurd h (by simp)
      · rcases exceptBind_err h with h1 | ⟨p, hp, h2⟩
        · exact ih _ _ _ h1
        · obtain ⟨v, rest⟩ := p
          exact ih _ _ _ h2
    | seqAfter acc =>
      simp only [parseF] at h
      split at h
      · exact absurd h (by simp)
      · exact ih _ _ _ h
      · simp only [Except.error.injEq] at h; exact h.symm
    | mapItems acc =>
      simp only [parseF] at h
      split at h
      · split at h
        · exact absurd h (by simp)
        · split at h
          · rcases exceptBind_err h with h1 | ⟨p, hp, h2⟩
            · exact ih _ _ _ h1
            · obtain ⟨v, rest3⟩ := p
              exact ih _ _ _ h2
          · simp only [Except.error.injEq] at h; exact h.symm
      · simp only [Except.error.injEq] at h; exact h.symm
    | mapAfter acc =>
      simp only [parseF] at h
      split at h
      · split at h
        · exact absurd h (by simp)
        · split at h
          · exact ih _ _ _ h
          · simp only [Except.error.injEq] at h; exact h.symm
      · simp only [Except.error.injEq] at h; exact h.symm

theorem parseInline_err (cs : List Char) (e : RenderError)
    (h : parseInline cs = .error e) : e = .documentParseError := by
  unfold parseInline at h
  rcases exceptBind_err h with h1 | ⟨p, hp, h2⟩
  · exact parseF_err _ _ _ _ h1
  · split at h2
    · exact absurd h2 (by simp [Pure.pure, Except.pure])
    · simp only [Except.error.injEq] at h2; exact h2.symm

theorem parseY_err : ∀ (fuel : Nat) (ctx : YCtx) (e : RenderError),
    parseY fuel ctx = .error e → e = .documentParseError := by
  intro fuel
  induction fuel with
  | zero =>
    intro ctx e h
    simp only [parseY, Except.error.injEq] at h
    exact h.symm
  | succ fuel ih =>
    intro ctx e h
    cases ctx with
    | val lns =>
      cases lns with
      | nil => exact absurd h (by simp [parseY])
      | cons l ls =>
        simp only [parseY] at h
        split at h
        · exact ih _ _ h
        · split at h
          · exact ih _ _ h
          · split at h
            · exact absurd h (by simp)
            · simp only [Except.error.injEq] at h; exact h.symm
    | seqLoop i lns acc =>
      cases lns with
      | nil => exact absurd h (by simp [parseY])
      | cons l ls =>
        simp only [parseY] at h
        split at h
        · split at h
          · rcases exceptBind_err h with h1 | ⟨v, hv, h2⟩
            · exact ih _ _ h1
            · exact ih _ _ h2
          · rcases exceptBind_err h with h1 | ⟨v, hv, h2⟩
            · exact ih _ _ h1
            · exact ih _ _ h2
        · simp only [Except.error.injEq] at h; exact h.symm
    | mapLoop i lns acc =>
      cases lns with
      | nil => exact absurd h (by simp [parseY])
      | cons l ls =>
        simp only [parseY] at h
        split at h
        · split at h
          · split at h
            · split at h
              · exact ih _ _ h
              · rcases exceptBind_err h with h1 | ⟨v, hv, h2⟩
                · exact ih _ _ h1
                · exact ih _ _ h2
            · split at h
              · rcases exceptBind_err h with h1 | ⟨v, hv, h2⟩
                · exact parseInline_err _ _ h1
                · exact ih _ _ h2
              · simp only [Except.error.injEq] at h; exact h.symm
          · simp only [Except.error.injEq] at h; exact h.symm
        · simp only [Except.error.injEq] at h; exact h.symm

theorem yamlParse_err (cs : List Char) (e : RenderError)
    (h : yamlParse cs = .error e) : e = .documentParseError := by
  unfold yamlParse at h
  exact parseY_err _ _ _ h

theorem yamlParse_not_ok {cs : List Char} (h : ∀ d, yamlParse cs ≠ .ok d) :
    yamlParse cs = .error .documentParseError := by
  cases hx : yamlParse cs with
  | error e => rw [yamlParse_err cs e hx]
  | ok d => exact absurd hx (h d)

end StreamTemplate

namespace StreamTemplate

theorem convertOne_err (v : Variable) (e : RenderError)
    (h : convertOne v = .error e) : e = .documentParseError := by
  unfold convertOne at h
  split at h
  · split at h
    · exact yamlParse_err _ _ h
    · simp only [Except.error.injEq] at h; exact h.symm
  · exact absurd h (by simp)

theorem convertVars_yaml_bad : ∀ (vars : List (String × Variable)) (name raw : String),
    lookupVar vars name = some ⟨.yaml, .str raw⟩ →
    (∀ d, yamlParse raw.data ≠ .ok d) →
    convertVars vars = .error .documentParseError := by
  intro vars
  induction vars with
  | nil => intro name raw hm; simp [lookupVar] at hm
  | cons kv rest ih =>
    obtain ⟨k, w⟩ := kv
    intro name raw hm hbad
    simp only [convertVars]
    by_cases hk : k = name
    · rw [lookupVar, if_pos hk] at hm
      injection hm with hw
      subst hw
      have hc : convertOne ⟨.yaml, .str raw⟩ = .error .documentParseError := by
        unfold convertOne
        exact yamlParse_not_ok hbad
      rw [hc]
      rfl
    · rw [lookupVar, if_neg hk] at hm
      have hr := ih name raw hm hbad
      cases hw : convertOne w with
      | error e =>
        have he := convertOne_err w e hw
        subst he
        rfl
      | ok d =>
        rw [hr]
        rfl

theorem convertVars_lookup : ∀ (vars : List (String × Variable)) (env : Env) (name : String)
    (v : Variable), convertVars vars = .ok env → lookupVar vars name = some v →
    ∃ d, convertOne v = .ok d ∧ lookupEnv env name = some d := by
  intro vars
  induction vars with
  | nil => intro env name v hv hm; simp [lookupVar] at hm
  | cons kv rest ih =>
    obtain ⟨k, w⟩ := kv
    intro env name v hv hm
    simp only [convertVars] at hv
    rcases exceptBind_ok hv with ⟨d0, hd0, h2⟩
    rcases exceptBind_ok h2 with ⟨env', henv', h3⟩
    have henv : env = (k, d0) :: env' := by
      have h4 : Except.ok (ε := RenderError) ((k, d0) :: env') = .ok env := h3
      injection h4 with h5
      exact h5.symm
    subst henv
    by_cases hk : k = name
    · rw [lookupVar, if_pos hk] at hm
      injection hm with hw
      subst hw
      exact ⟨d0, hd0, by rw [lookupEnv, if_pos hk]⟩
    · rw [lookupVar, if_neg hk] at hm
      obtain ⟨d, hd, hl⟩ := ih env' name v henv' hm
      exact ⟨d, hd, by rw [lookupEnv, if_neg hk]; exact hl⟩

theorem convertVars_lookup_none : ∀ (vars : List (String × Variable)) (env : Env) (name : String),
    convertVars vars = .ok env → lookupVar vars name = none → lookupEnv env name = none := by
  intro vars
  induction vars with
  | nil =>
    intro env name hv hm
    simp only [convertVars, Except.ok.injEq] at hv
    rw [← hv]
    rfl
  | cons kv rest ih =>
    obtain ⟨k, w⟩ := kv
    intro env name hv hm
    simp only [convertVars] at hv
    rcases exceptBind_ok hv with ⟨d0, hd0, h2⟩
    rcases exceptBind_ok h2 with ⟨env', henv', h3⟩
    have henv : env = (k, d0) :: env' := by
      have h4 : Except.ok (ε := RenderError) ((k, d0) :: env') = .ok env := h3
      injection h4 with h5
      exact h5.symm
    subst henv
    by_cases hk : k = name
    · rw [lookupVar, if_pos hk] at hm
      exact absurd hm (by simp)
    · rw [lookupVar, if_neg hk] at hm
      rw [lookupEnv, if_neg hk]
      exact ih env' name henv' hm

/-- C1: for the variable mapping of the log-input scenario and its template
(an `input: log` line, a `paths` each-loop, literal `exclude_files` and
`processors` entries, a `password` placeholder and a conditional password
block), `createStream` returns exactly the expected document. -/
theorem c1_log_scenario : createStream varsLog tplLog = .ok docLog := rfl

/-- C9: `createStream` is a pure function of its two inputs: two runs on
identical inputs yield structurally equal documents.  In this embedding the
renderer is a total function reading no external state, so purity holds by
construction. -/
theorem c9_deterministic (vars : List (String × Variable)) (tpl : String) (d1 d2 : DocValue)
    (h1 : createStream vars tpl = .ok d1) (h2 : createStream vars tpl = .ok d2) : d1 = d2 := by
  rw [h1] at h2
  injection h2

theorem c9_deterministic_witness : docLog = docLog :=
  c9_deterministic varsLog tplLog docLog docLog rfl rfl

/-- C6: whenever the mapping holds a yaml-typed variable whose raw value does
not parse as structured data, `createStream` fails with `documentParseError`
for every template, and never returns a (partial) document. -/
theorem c6_malformed_yaml_variable (vars : List (String × Variable)) (tpl : String)
    (name raw : String)
    (hmem : lookupVar vars name = some ⟨.yaml, .str raw⟩)
    (hbad : ∀ d, yamlParse raw.data ≠ .ok d) :
    createStream vars tpl = .error .documentParseError := by
  unfold createStream
  rw [convertVars_yaml_bad vars name raw hmem hbad]
  rfl

theorem c6_malformed_yaml_variable_witness :
    createStream varsYamlBad "a: 1" = .error .documentParseError :=
  c6_malformed_yaml_variable varsYamlBad "a: 1" "k" "- a\nb: c" rfl
    (fun d h => by
      rw [show yamlParse ("- a\nb: c").data = Except.error .documentParseError from rfl] at h
      exact Except.noConfusion h)

/-- C7 counterexample: with an unterminated each block and a variable mapping
holding a malformed yaml-typed variable, `createStream` fails with
`documentParseError`, not `templateSyntaxError`: variable conversion runs
before the template is parsed. -/
theorem c7_counterexample :
    createStream varsYamlBad (tagEach "x") = .error .documentParseError ∧
    createStream varsYamlBad (tagEach "x") ≠ .error .templateSyntaxError := by
  constructor
  · rfl
  · intro h
    rw [show createStream varsYamlBad (tagEach "x") = .error .documentParseError from rfl] at h
    injection h with h2
    exact RenderError.noConfusion h2

/-- C7 amended: for every template whose parse fails (unterminated or
mismatched block) and every variable mapping whose conversion succeeds (all
yaml-typed values parse), `createStream` fails with `templateSyntaxError` and
returns no document. -/
theorem c7_template_syntax_error (vars : List (String × Variable)) (env : Env)
    (tpl : String) (e : RenderError)
    (hv : convertVars vars = .ok env)
    (hp : parseTemplate tpl.data = .error e) :
    createStream vars tpl = .error .templateSyntaxError := by
  have he := parseTemplate_err _ _ hp
  subst he
  unfold createStream renderText
  rw [hv]
  simp only [Bind.bind, Except.bind]
  rw [hp]

theorem c7_template_syntax_error_witness :
    createStream [] (tagEach "x") = .error .templateSyntaxError :=
  c7_template_syntax_error [] [] (tagEach "x") .templateSyntaxError rfl rfl

/-- C2: the raw string value of every yaml-typed variable is parsed as
structured data and bound in the expansion environment (hence re-emitted
inline at its placeholder); in particular the redis scenario with the
yaml-typed `key.patterns` variable renders to the expected document, whose
literal `key.patterns` key holds the parsed sequence. -/
theorem c2_yaml_typed_variables :
    (∀ (vars : List (String × Variable)) (env : Env) (name raw : String) (d : DocValue),
      convertVars vars = .ok env →
      lookupVar vars name = some ⟨.yaml, .str raw⟩ →
      yamlParse raw.data = .ok d →
      lookupEnv env name = some d)
    ∧ createStream varsRedis tplRedis = .ok docRedis
    ∧ docLookup docRedis "key.patterns"
        = some (.seq [.map [("limit", .num 20), ("pattern", .str "*")]]) := by
  refine ⟨?_, rfl, rfl⟩
  intro vars env name raw d hv hm hp
  obtain ⟨d0, hd0, hl⟩ := convertVars_lookup vars env name ⟨.yaml, .str raw⟩ hv hm
  have : Except.ok (ε := RenderError) d0 = .ok d := by
    rw [← hd0]
    unfold convertOne
    exact hp
  injection this with h5
  rw [← h5]
  exact hl

theorem c2_yaml_typed_variables_witness :
    lookupEnv [("key.patterns", .seq [.map [("limit", .num 20), ("pattern", .str "*")]]),
               ("password", .str "")] "key.patterns"
      = some (.seq [.map [("limit", .num 20), ("pattern", .str "*")]]) :=
  c2_yaml_typed_variables.1 varsRedis
    [("key.patterns", .seq [.map [("limit", .num 20), ("pattern", .str "*")]]),
     ("password", .str "")]
    "key.patterns" "\n        - limit: 20\n          pattern: '*'\n        "
    (.seq [.map [("limit", .num 20), ("pattern", .str "*")]]) rfl rfl rfl

/-- C5: a dotted identifier is resolved by matching the whole dotted string
literally against the mapping key (first match wins, other entries are
skipped by name inequality), not by nested-path descent; in the contrast
scenario the literal entry wins over the nested `key -> patterns` path, and
the rendered document carries the dotted name as a single literal key. -/
theorem c5_dotted_literal_matching :
    (∀ (env : Env) (x : String) (v : DocValue), lookupEnv ((x, v) :: env) x = some v)
    ∧ (∀ (env : Env) (x k : String) (w : DocValue), k ≠ x →
        lookupEnv ((k, w) :: env) x = lookupEnv env x)
    ∧ createStream varsDotted tplDotted = .ok (.map [("key.patterns", .str "RIGHT")])
    ∧ convertVars varsDotted = .ok envDotted
    ∧ lookupEnv envDotted "key.patterns" = some (.str "RIGHT")
    ∧ nestedPathLookup envDotted "key.patterns" = some (.str "WRONG") := by
  refine ⟨?_, ?_, rfl, rfl, rfl, rfl⟩
  · intro env x v
    rw [lookupEnv, if_pos rfl]
  · intro env x k w hk
    rw [lookupEnv, if_neg hk]

theorem c5_dotted_literal_matching_witness :
    lookupEnv [("key.patterns", .str "RIGHT")] "key.patterns" = some (.str "RIGHT") :=
  c5_dotted_literal_matching.1 [] "key.patterns" (.str "RIGHT")

end StreamTemplate

namespace UnenrollHandler

theorem collectActiveIds_mem : ∀ (pages : List (List Agent)) (i : String),
    i ∈ collectActiveIds pages →
    ∃ a pg, pg ∈ pages ∧ a ∈ pg ∧ a.active = true ∧ a.id = i := by
  intro pages
  induction pages with
  | nil => intro i hi; simp [collectActiveIds] at hi
  | cons pg rest ih =>
    intro i hi
    unfold collectActiveIds at hi
    split at hi
    · simp at hi
    · rcases List.mem_append.mp hi with h | h
      · obtain ⟨a, ha, hid⟩ := List.mem_map.mp h
        obtain ⟨hapg, hact⟩ := List.mem_filter.mp ha
        exact ⟨a, pg, List.mem_cons_self pg rest, hapg, hact, hid⟩
      · obtain ⟨a, pg', hpg', hapg', hact, hid⟩ := ih i h
        exact ⟨a, pg', List.mem_cons_of_mem pg hpg', hapg', hact, hid⟩

/-- C10: on the success path of the unenroll handler, the top-level `success`
field is true iff every per-agent result succeeded; every result carries
action `unenrolled`; the ids of the request body are always unenrolled; and
any other unenrolled id was collected from a kuery page agent whose `active`
flag is true. -/
theorem c10_unenroll_handler (body : ReqBody) (pages : List (List Agent))
    (svc : List String → List SvcResult) :
    ((postAgentsUnenrollHandler body pages svc).success = true ↔
      ∀ r ∈ (postAgentsUnenrollHandler body pages svc).results, r.success = true)
    ∧ (∀ r ∈ (postAgentsUnenrollHandler body pages svc).results, r.action = "unenrolled")
    ∧ (∀ i ∈ body.ids.getD [], i ∈ toUnenrollIds body pages)
    ∧ (∀ i ∈ toUnenrollIds body pages,
        i ∈ body.ids.getD [] ∨
          (kueryTruthy body.kuery = true ∧
            ∃ a pg, pg ∈ pages ∧ a ∈ pg ∧ a.active = true ∧ a.id = i)) := by
  refine ⟨?_, ?_, ?_, ?_⟩
  · simp [postAgentsUnenrollHandler, List.all_eq_true]
  · intro r hr
    simp only [postAgentsUnenrollHandler, List.mem_map] at hr
    obtain ⟨x, hx, hr⟩ := hr
    rw [← hr]
  · intro i hi
    exact List.mem_append_left _ hi
  · intro i hi
    rcases List.mem_append.mp hi with h | h
    · exact Or.inl h
    · by_cases hk : kueryTruthy body.kuery
      · rw [if_pos hk] at h
        exact Or.inr ⟨hk, collectActiveIds_mem pages i h⟩
      · rw [if_neg hk] at h
        simp at h

theorem c10_unenroll_handler_witness :
    "i1" ∈ toUnenrollIds ⟨some "q", some ["i1"]⟩ [[⟨"a1", true⟩, ⟨"a2", false⟩]] :=
  (c10_unenroll_handler ⟨some "q", some ["i1"]⟩ [[⟨"a1", true⟩, ⟨"a2", false⟩]]
    (fun ids => ids.map (fun i => ⟨true, i, none⟩))).2.2.1 "i1" (by simp)

end UnenrollHandler

namespace StreamTemplate

theorem nameChar_ne (c : Char) (h : nameChar c = true) (d : Char) (hd : nameChar d = false) :
    c ≠ d := by
  intro he
  subst he
  rw [h] at hd
  cases hd

theorem nameChar_not_ws (c : Char) (h : nameChar c = true) : isWsChar c = false := by
  by_contra hw
  rw [Bool.not_eq_false] at hw
  simp only [isWsChar, Bool.or_eq_true, beq_iff_eq] at hw
  rcases hw with ((h1 | h1) | h1) | h1 <;> (subst h1; exact absurd h (by decide))

theorem validName_all (s : String) (h : validName s = true) : ∀ c ∈ s.data, nameChar c = true := by
  simp only [validName, Bool.and_eq_true, List.all_eq_true] at h
  exact h.2

theorem validName_ne_nil (s : String) (h : validName s = true) : s.data ≠ [] := by
  simp only [validName, Bool.and_eq_true] at h
  have := h.1
  simpa [List.isEmpty_iff] using this

theorem dropWsLead_eq_self {cs : List Char} (h : ∀ c ∈ cs, isWsChar c = false) :
    dropWsLead cs = cs := by
  cases cs with
  | nil => rfl
  | cons c cs' =>
    rw [dropWsLead, if_neg]
    simp [h c (List.mem_cons_self c cs')]

theorem trimChars_eq_self {cs : List Char} (h : ∀ c ∈ cs, isWsChar c = false) :
    trimChars cs = cs := by
  unfold trimChars
  rw [dropWsLead_eq_self (fun c hc => h c (List.mem_reverse.mp hc)), List.reverse_reverse,
      dropWsLead_eq_self h]

theorem trimChars_ends (c d : Char) (ys : List Char) (hc : isWsChar c = false)
    (hd : isWsChar d = false) :
    trimChars (c :: (ys ++ [d])) = c :: (ys ++ [d]) := by
  unfold trimChars
  have h1 : (c :: (ys ++ [d])).reverse = d :: (ys.reverse ++ [c]) := by simp
  rw [h1, dropWsLead, if_neg (by simp [hd])]
  have h2 : (d :: (ys.reverse ++ [c])).reverse = c :: (ys ++ [d]) := by simp
  rw [h2, dropWsLead, if_neg (by simp [hc])]

theorem startsWithSeq_self_append : ∀ (p r : List Char), startsWithSeq p (p ++ r) = true := by
  intro p
  induction p with
  | nil => intro r; rfl
  | cons c p ih => intro r; simp [startsWithSeq, ih]

theorem braceFree_cons {x : Char} {a : List Char} (h : braceFreeChars (x :: a) = true) :
    x ≠ lbrace ∧ x ≠ rbrace ∧ braceFreeChars a = true := by
  simp only [braceFreeChars, List.all_cons, Bool.and_eq_true, bne_iff_ne, ne_eq] at h
  exact ⟨h.1.1, h.1.2, by simp only [braceFreeChars]; exact h.2⟩

theorem tokAux_text : ∀ (a : List Char), braceFreeChars a = true →
    ∀ (acc r : List Char), tokAux false acc (a ++ r) = tokAux false (a.reverse ++ acc) r := by
  intro a
  induction a with
  | nil => intro _ acc r; simp
  | cons x a ih =>
    intro hbf acc r
    obtain ⟨hxl, _, ha⟩ := braceFree_cons hbf
    cases har : a ++ r with
    | nil =>
      obtain ⟨ha0, hr0⟩ := List.append_eq_nil.mp har
      subst ha0
      subst hr0
      simp [tokAux]
    | cons y ys =>
      have hsplit : (x :: a) ++ r = x :: y :: ys := by rw [List.cons_append, har]
      rw [hsplit, tokAux, if_neg (fun hand => hxl hand.1), ← har, ih ha (x :: acc) r]
      simp [List.append_assoc]

theorem tokAux_tagRun : ∀ (a : List Char), a.all (fun c => c != rbrace) = true →
    ∀ (acc r : List Char), tokAux true acc (a ++ r) = tokAux true (a.reverse ++ acc) r := by
  intro a
  induction a with
  | nil => intro _ acc r; simp
  | cons x a ih =>
    intro hbf acc r
    simp only [List.all_cons, Bool.and_eq_true, bne_iff_ne, ne_eq] at hbf
    obtain ⟨hxr, ha⟩ := hbf
    cases har : a ++ r with
    | nil =>
      obtain ⟨ha0, hr0⟩ := List.append_eq_nil.mp har
      subst ha0
      subst hr0
      simp [tokAux]
    | cons y ys =>
      have hsplit : (x :: a) ++ r = x :: y :: ys := by rw [List.cons_append, har]
      rw [hsplit, tokAux, if_neg (fun hand => hxr hand.1), ← har, ih ha (x :: acc) r]
      simp [List.append_assoc]

theorem tokenize_segments : ∀ (segs : List (List Char × List Char)) (tail : List Char),
    (∀ p ∈ segs, braceFreeChars p.1 = true ∧ p.2.all (fun c => c != rbrace) = true) →
    braceFreeChars tail = true →
    tokenize (segs.foldr (fun p acc => p.1 ++ lbrace :: lbrace :: (p.2 ++ rbrace :: rbrace :: acc)) tail)
      = .ok (segs.foldr (fun p acc => .text p.1 :: classifyTag p.2 :: acc) [.text tail]) := by
  intro segs
  induction segs with
  | nil =>
    intro tail _ htail
    unfold tokenize
    simp only [List.foldr_nil]
    have hx := tokAux_text tail htail [] []
    rw [List.append_nil] at hx
    rw [hx]
    simp [tokAux]
  | cons p segs ih =>
    intro tail hseg htail
    obtain ⟨hp1, hp2⟩ := hseg p (List.mem_cons_self p segs)
    unfold tokenize
    simp only [List.foldr_cons]
    rw [tokAux_text p.1 hp1 [], tokAux, if_pos ⟨rfl, rfl⟩,
        tokAux_tagRun p.2 hp2 [], tokAux, if_pos ⟨rfl, rfl⟩]
    have hrec := ih tail (fun q hq => hseg q (List.mem_cons_of_mem p hq)) htail
    unfold tokenize at hrec
    rw [hrec]
    simp [Except.map]

end StreamTemplate

namespace StreamTemplate

theorem str_data_append (s t : String) : (s ++ t).data = s.data ++ t.data := rfl

theorem oBr_data : oBr.data = [lbrace, lbrace] := rfl

theorem cBr_data : cBr.data = [rbrace, rbrace] := rfl

theorem nameChar_all_not_ws {s : String} (h : validName s = true) :
    ∀ c ∈ s.data, isWsChar c = false :=
  fun c hc => nameChar_not_ws c (validName_all s h c hc)

theorem trim_name {s : String} (h : validName s = true) : trimChars s.data = s.data :=
  trimChars_eq_self (nameChar_all_not_ws h)

theorem name_concat (s : String) (h : validName s = true) :
    ∃ ns d, s.data = ns ++ [d] ∧ nameChar d = true := by
  rcases List.eq_nil_or_concat s.data with h0 | ⟨ns, d, hnd⟩
  · exact absurd h0 (validName_ne_nil s h)
  · rw [List.concat_eq_append] at hnd
    exact ⟨ns, d, hnd, validName_all s h d (by rw [hnd]; simp)⟩

theorem name_all_ne_rbrace {s : String} (h : validName s = true) :
    (s.data.all (fun c => c != rbrace)) = true := by
  simp only [List.all_eq_true, bne_iff_ne, ne_eq]
  intro c hc
  exact nameChar_ne c (validName_all s h c hc) rbrace (by decide)

theorem classifyTag_closeIf : classifyTag "/if".data = .closeIf := rfl

theorem classifyTag_closeEach : classifyTag "/each".data = .closeEach := rfl

theorem classifyTag_this : classifyTag "this".data = .hole "this" := rfl

theorem classifyTag_openIf (n : String) (hn : validName n = true) :
    classifyTag ("#if ".data ++ n.data) = .openIf n := by
  obtain ⟨ns, d, hnd, hd⟩ := name_concat n hn
  have htrim : trimChars ("#if ".data ++ n.data) = "#if ".data ++ n.data := by
    rw [hnd]
    have hshape : "#if ".data ++ (ns ++ [d]) = '#' :: (("if ".data ++ ns) ++ [d]) := by
      simp
    rw [hshape, trimChars_ends '#' d ("if ".data ++ ns) (by decide) (nameChar_not_ws d hd)]
  unfold classifyTag
  rw [htrim, if_pos (startsWithSeq_self_append "#if ".data n.data)]
  have hdrop : ("#if ".data ++ n.data).drop 4 = n.data := rfl
  rw [hdrop, trim_name hn]

theorem classifyTag_openEach (n : String) (hn : validName n = true) :
    classifyTag ("#each ".data ++ n.data) = .openEach n := by
  obtain ⟨ns, d, hnd, hd⟩ := name_concat n hn
  have htrim : trimChars ("#each ".data ++ n.data) = "#each ".data ++ n.data := by
    rw [hnd]
    have hshape : "#each ".data ++ (ns ++ [d]) = '#' :: (("each ".data ++ ns) ++ [d]) := by
      simp
    rw [hshape, trimChars_ends '#' d ("each ".data ++ ns) (by decide) (nameChar_not_ws d hd)]
  have hnotif : startsWithSeq "#if ".data ("#each ".data ++ n.data) = false := rfl
  unfold classifyTag
  rw [htrim, hnotif]
  rw [if_neg (by simp), if_pos (startsWithSeq_self_append "#each ".data n.data)]
  have hdrop : ("#each ".data ++ n.data).drop 6 = n.data := rfl
  rw [hdrop, trim_name hn]

theorem classifyTag_hole (x : String) (hx : validName x = true) :
    classifyTag x.data = .hole x := by
  have htrim := trim_name hx
  obtain ⟨c, rest, hcr⟩ : ∃ c rest, x.data = c :: rest := by
    cases h0 : x.data with
    | nil => exact absurd h0 (validName_ne_nil x hx)
    | cons c rest => exact ⟨c, rest, rfl⟩
  have hc : nameChar c = true := validName_all x hx c (by rw [hcr]; simp)
  have hhash : ('#' == c) = false := by
    have := nameChar_ne c hc '#' (by decide)
    simp [beq_iff_eq]
    exact fun he => this he.symm
  have hslash : c ≠ '/' := nameChar_ne c hc '/' (by decide)
  have h1 : startsWithSeq "#if ".data x.data = false := by
    rw [hcr]
    simp [startsWithSeq, hhash]
  have h2 : startsWithSeq "#each ".data x.data = false := by
    rw [hcr]
    simp [startsWithSeq, hhash]
  have h3 : ¬(x.data = "/if".data) := by
    rw [hcr]
    intro he
    rw [show "/if".data = '/' :: ['i', 'f'] from rfl] at he
    injection he with he1 he2
    exact hslash he1
  have h4 : ¬(x.data = "/each".data) := by
    rw [hcr]
    intro he
    rw [show "/each".data = '/' :: ['e', 'a', 'c', 'h'] from rfl] at he
    injection he with he1 he2
    exact hslash he1
  unfold classifyTag
  rw [htrim, h1, h2]
  rw [if_neg (by simp), if_neg (by simp), if_neg h3, if_neg h4]

end StreamTemplate

namespace StreamTemplate

theorem shape_if (a b c : List Char) (n : String) :
    a ++ (tagIf n).data ++ b ++ tagEndIf.data ++ c
      = [(a, "#if ".data ++ n.data), (b, "/if".data)].foldr
          (fun p acc => p.1 ++ lbrace :: lbrace :: (p.2 ++ rbrace :: rbrace :: acc)) c := by
  simp [tagIf, tagEndIf, oBr, cBr, str_data_append, List.append_assoc]

theorem tokenize_if (a b c : List Char) (n : String) (hn : validName n = true)
    (ha : braceFreeChars a = true) (hb : braceFreeChars b = true)
    (hc : braceFreeChars c = true) :
    tokenize (a ++ (tagIf n).data ++ b ++ tagEndIf.data ++ c)
      = .ok [.text a, .openIf n, .text b, .closeIf, .text c] := by
  have hseg : ∀ p ∈ [(a, "#if ".data ++ n.data), (b, "/if".data)],
      braceFreeChars p.1 = true ∧ (p.2.all (fun ch => ch != rbrace)) = true := by
    intro p hp
    rcases List.mem_cons.mp hp with rfl | hp2
    · refine ⟨ha, ?_⟩
      rw [List.all_append, Bool.and_eq_true]
      exact ⟨by decide, name_all_ne_rbrace hn⟩
    · rcases List.mem_cons.mp hp2 with rfl | hp3
      · refine ⟨hb, ?_⟩
        show ("/if".data.all (fun ch => ch != rbrace)) = true
        decide
      · simp at hp3
  have hts := tokenize_segments [(a, "#if ".data ++ n.data), (b, "/if".data)] c hseg hc
  rw [shape_if, hts]
  simp only [List.foldr_cons, List.foldr_nil]
  rw [classifyTag_openIf n hn, classifyTag_closeIf]

theorem build_if (a b c : List Char) (n : String) :
    buildAux [] [] [.text a, .openIf n, .text b, .closeIf, .text c]
      = .ok [.lit a, .cond n [.lit b], .lit c] := by
  simp [buildAux]

theorem parseTemplate_if (a b c : List Char) (n : String) (hn : validName n = true)
    (ha : braceFreeChars a = true) (hb : braceFreeChars b = true)
    (hc : braceFreeChars c = true) :
    parseTemplate (a ++ (tagIf n).data ++ b ++ tagEndIf.data ++ c)
      = .ok [.lit a, .cond n [.lit b], .lit c] := by
  unfold parseTemplate
  rw [tokenize_if a b c n hn ha hb hc]
  simp only [Bind.bind, Except.bind]
  exact build_if a b c n

theorem expand_if (env : Env) (a b c : List Char) (n : String) :
    expandNodes env [.lit a, .cond n [.lit b], .lit c]
      = a ++ (if isTruthy (lookupEnv env n) then b else []) ++ c := by
  by_cases h : isTruthy (lookupEnv env n) <;>
    simp [expandNodes, expandNode, h]

/-- C3: a conditional block's body is included in the expanded text iff the
guard variable resolves as truthy in the environment derived from the
variable mapping (existing and non-null, a non-empty string, a non-empty
sequence or a true boolean); with the empty-string password of the log
scenario the block is omitted, so the rendered document has no
`hidden_password` key. -/
theorem c3_conditional_block (vars : List (String × Variable)) (env : Env) (n : String)
    (a b c : List Char)
    (hv : convertVars vars = .ok env)
    (hn : validName n = true)
    (ha : braceFreeChars a = true) (hb : braceFreeChars b = true)
    (hc : braceFreeChars c = true) :
    renderText env (a ++ (tagIf n).data ++ b ++ tagEndIf.data ++ c)
      = .ok (a ++ (if isTruthy (lookupEnv env n) then b else []) ++ c)
    ∧ createStream varsLog tplLog = .ok docLog
    ∧ docLookup docLog "hidden_password" = none := by
  refine ⟨?_, rfl, rfl⟩
  unfold renderText
  rw [parseTemplate_if a b c n hn ha hb hc]
  simp only [Bind.bind, Except.bind]
  rw [expand_if]

theorem c3_conditional_block_witness :
    renderText [("paths", .seq [.str "/usr/local/var/log/nginx/access.log"]), ("password", .str "")]
      (("x: 1\n").data ++ (tagIf "password").data ++ ("h: 2\n").data ++ tagEndIf.data ++ [])
      = .ok (("x: 1\n").data ++
          (if isTruthy (lookupEnv
              [("paths", .seq [.str "/usr/local/var/log/nginx/access.log"]),
               ("password", .str "")] "password")
           then ("h: 2\n").data else []) ++ []) :=
  (c3_conditional_block varsLog
    [("paths", .seq [.str "/usr/local/var/log/nginx/access.log"]), ("password", .str "")]
    "password" ("x: 1\n").data ("h: 2\n").data [] rfl (by decide) (by decide) (by decide)
    (by decide)).1

end StreamTemplate

namespace StreamTemplate

theorem shape_hole (a c : List Char) (x : String) :
    a ++ (ph x).data ++ c
      = [(a, x.data)].foldr
          (fun p acc => p.1 ++ lbrace :: lbrace :: (p.2 ++ rbrace :: rbrace :: acc)) c := by
  simp [ph, oBr, cBr, str_data_append, List.append_assoc]

theorem tokenize_hole (a c : List Char) (x : String) (hx : validName x = true)
    (ha : braceFreeChars a = true) (hc : braceFreeChars c = true) :
    tokenize (a ++ (ph x).data ++ c) = .ok [.text a, .hole x, .text c] := by
  have hseg : ∀ p ∈ [(a, x.data)],
      braceFreeChars p.1 = true ∧ (p.2.all (fun ch => ch != rbrace)) = true := by
    intro p hp
    rcases List.mem_cons.mp hp with rfl | hp2
    · exact ⟨ha, name_all_ne_rbrace hx⟩
    · simp at hp2
  have hts := tokenize_segments [(a, x.data)] c hseg hc
  rw [shape_hole, hts]
  simp only [List.foldr_cons, List.foldr_nil]
  rw [classifyTag_hole x hx]

theorem parseTemplate_hole (a c : List Char) (x : String) (hx : validName x = true)
    (ha : braceFreeChars a = true) (hc : braceFreeChars c = true) :
    parseTemplate (a ++ (ph x).data ++ c) = .ok [.lit a, .hole x, .lit c] := by
  unfold parseTemplate
  rw [tokenize_hole a c x hx ha hc]
  simp only [Bind.bind, Except.bind]
  simp [buildAux]

theorem shape_each (a b c : List Char) (n : String) :
    a ++ (tagEach n).data ++ b ++ tagEndEach.data ++ c
      = [(a, "#each ".data ++ n.data), (b, "/each".data)].foldr
          (fun p acc => p.1 ++ lbrace :: lbrace :: (p.2 ++ rbrace :: rbrace :: acc)) c := by
  simp [tagEach, tagEndEach, oBr, cBr, str_data_append, List.append_assoc]

theorem tokenize_each (a b c : List Char) (n : String) (hn : validName n = true)
    (ha : braceFreeChars a = true) (hb : braceFreeChars b = true)
    (hc : braceFreeChars c = true) :
    tokenize (a ++ (tagEach n).data ++ b ++ tagEndEach.data ++ c)
      = .ok [.text a, .openEach n, .text b, .closeEach, .text c] := by
  have hseg : ∀ p ∈ [(a, "#each ".data ++ n.data), (b, "/each".data)],
      braceFreeChars p.1 = true ∧ (p.2.all (fun ch => ch != rbrace)) = true := by
    intro p hp
    rcases List.mem_cons.mp hp with rfl | hp2
    · refine ⟨ha, ?_⟩
      rw [List.all_append, Bool.and_eq_true]
      exact ⟨by decide, name_all_ne_rbrace hn⟩
    · rcases List.mem_cons.mp hp2 with rfl | hp3
      · refine ⟨hb, ?_⟩
        show ("/each".data.all (fun ch => ch != rbrace)) = true
        decide
      · simp at hp3
  have hts := tokenize_segments [(a, "#each ".data ++ n.data), (b, "/each".data)] c hseg hc
  rw [shape_each, hts]
  simp only [List.foldr_cons, List.foldr_nil]
  rw [classifyTag_openEach n hn, classifyTag_closeEach]

theorem parseTemplate_each (a b c : List Char) (n : String) (hn : validName n = true)
    (ha : braceFreeChars a = true) (hb : braceFreeChars b = true)
    (hc : braceFreeChars c = true) :
    parseTemplate (a ++ (tagEach n).data ++ b ++ tagEndEach.data ++ c)
      = .ok [.lit a, .iter n [.lit b], .lit c] := by
  unfold parseTemplate
  rw [tokenize_each a b c n hn ha hb hc]
  simp only [Bind.bind, Except.bind]
  simp [buildAux]

/-- C8: a plain placeholder naming an absent variable renders as the empty
string, and a conditional or iteration block whose guard variable is absent
contributes nothing; none of the three raises an error. -/
theorem c8_absent_variables (vars : List (String × Variable)) (env : Env) (x : String)
    (a b c : List Char)
    (hv : convertVars vars = .ok env)
    (hx : lookupVar vars x = none)
    (hn : validName x = true)
    (ha : braceFreeChars a = true) (hb : braceFreeChars b = true)
    (hc : braceFreeChars c = true) :
    renderText env (a ++ (ph x).data ++ c) = .ok (a ++ c)
    ∧ renderText env (a ++ (tagIf x).data ++ b ++ tagEndIf.data ++ c) = .ok (a ++ c)
    ∧ renderText env (a ++ (tagEach x).data ++ b ++ tagEndEach.data ++ c) = .ok (a ++ c) := by
  have hnone : lookupEnv env x = none := convertVars_lookup_none vars env x hv hx
  refine ⟨?_, ?_, ?_⟩
  · unfold renderText
    rw [parseTemplate_hole a c x hn ha hc]
    simp [Bind.bind, Except.bind, expandNodes, expandNode, substFor, hnone]
  · unfold renderText
    rw [parseTemplate_if a b c x hn ha hb hc]
    simp [Bind.bind, Except.bind, expandNodes, expandNode, hnone, isTruthy]
  · unfold renderText
    rw [parseTemplate_each a b c x hn ha hb hc]
    simp [Bind.bind, Except.bind, expandNodes, expandNode, hnone]

theorem c8_absent_variables_witness :
    renderText [] (("a: 1\n").data ++ (ph "missing").data ++ []) = .ok (("a: 1\n").data ++ []) :=
  (c8_absent_variables [] [] "missing" ("a: 1\n").data ("b: 2\n").data [] rfl rfl
    (by decide) (by decide) (by decide) (by decide)).1

end StreamTemplate

namespace StreamTemplate

theorem str_eq_of_data (a b : String) (h : a.data = b.data) : a = b :=
  congrArg String.mk h

theorem plainChar_ne (c : Char) (h : plainChar c = true) (d : Char) (hd : plainChar d = false) :
    c ≠ d := by
  intro he
  subst he
  rw [h] at hd
  cases hd

theorem plainChar_not_ws (c : Char) (h : plainChar c = true) : isWsChar c = false := by
  by_contra hw
  rw [Bool.not_eq_false] at hw
  simp only [isWsChar, Bool.or_eq_true, beq_iff_eq] at hw
  rcases hw with ((h1 | h1) | h1) | h1 <;> (subst h1; exact absurd h (by decide))

theorem plain_spec (s : String) (h : isPlainScalarStr s = true) :
    s.data ≠ [] ∧ (∀ c ∈ s.data, plainChar c = true) ∧ isDashLine s.data = false ∧
    s ≠ "null" ∧ s ≠ "~" ∧ s ≠ "true" ∧ s ≠ "false" ∧ parseIntChars s.data = none := by
  simp only [isPlainScalarStr, Bool.and_eq_true, List.all_eq_true, Bool.not_eq_true',
    beq_eq_false_iff_ne, ne_eq, Option.isNone_iff_eq_none] at h
  obtain ⟨⟨⟨⟨⟨⟨⟨h1, h2⟩, h3⟩, h4⟩, h5⟩, h6⟩, h7⟩, h8⟩ := h
  refine ⟨?_, h2, h3, h4, h5, h6, h7, h8⟩
  simpa [List.isEmpty_iff] using h1

theorem colonSplit_plain : ∀ (cs : List Char), (∀ c ∈ cs, plainChar c = true) →
    colonSplit cs = none := by
  intro cs
  induction cs with
  | nil => intro _; rfl
  | cons c cs' ih =>
    intro h
    have hc : c ≠ ':' := plainChar_ne c (h c (List.mem_cons_self c cs')) ':' (by decide)
    have ih' := ih (fun d hd => h d (List.mem_cons_of_mem c hd))
    simp [colonSplit, hc, ih']

theorem scalarOf_plain (s : String) (h : isPlainScalarStr s = true) :
    scalarOf s.data = .str s := by
  obtain ⟨_, _, _, h4, h5, h6, h7, h8⟩ := plain_spec s h
  unfold scalarOf
  rw [if_neg (fun he => h4 (str_eq_of_data s "null" he)),
      if_neg (fun he => h5 (str_eq_of_data s "~" he)),
      if_neg (fun he => h6 (str_eq_of_data s "true" he)),
      if_neg (fun he => h7 (str_eq_of_data s "false" he)), h8]

end StreamTemplate

namespace StreamTemplate

theorem parseY_mono : ∀ (f : Nat) {g : Nat}, f ≤ g → ∀ (ctx : YCtx) (out : DocValue),
    parseY f ctx = .ok out → parseY g ctx = .ok out := by
  intro f
  induction f with
  | zero => intro g hfg ctx out h; simp [parseY] at h
  | succ f ih =>
    intro g hfg ctx out h
    obtain ⟨g', rfl⟩ : ∃ g', g = g' + 1 := ⟨g - 1, by omega⟩
    have hfg' : f ≤ g' := by omega
    cases ctx with
    | val lns =>
      cases lns with
      | nil => simpa [parseY] using h
      | cons l ls =>
        simp only [parseY] at h ⊢
        by_cases hd : isDashLine l.content = true
        · rw [if_pos hd] at h ⊢
          exact ih hfg' _ _ h
        · rw [if_neg hd] at h ⊢
          cases hcs : colonSplit l.content with
          | some p =>
            rw [hcs] at h
            dsimp only at h ⊢
            exact ih hfg' _ _ h
          | none =>
            rw [hcs] at h
            dsimp only at h ⊢
            cases ls with
            | nil => exact h
            | cons a b => exact absurd h (by simp)
    | seqLoop i lns acc =>
      cases lns with
      | nil => simpa [parseY] using h
      | cons l ls =>
        simp only [parseY] at h ⊢
        by_cases hcond : l.indent = i ∧ isDashLine l.content = true
        · rw [if_pos hcond] at h ⊢
          by_cases hh : l.content.tail.drop (countIndent l.content.tail) = []
          · rw [if_pos hh] at h ⊢
            rcases exceptBind_ok h with ⟨a, ha, h2⟩
            rw [ih hfg' _ _ ha]
            simp only [Bind.bind, Except.bind]
            exact ih hfg' _ _ h2
          · rw [if_neg hh] at h ⊢
            rcases exceptBind_ok h with ⟨a, ha, h2⟩
            rw [ih hfg' _ _ ha]
            simp only [Bind.bind, Except.bind]
            exact ih hfg' _ _ h2
        · rw [if_neg hcond] at h
          exact absurd h (by simp)
    | mapLoop i lns acc =>
      cases lns with
      | nil => simpa [parseY] using h
      | cons l ls =>
        simp only [parseY] at h ⊢
        by_cases hind : l.indent = i
        · rw [if_pos hind] at h ⊢
          cases hcs : colonSplit l.content with
          | none =>
            rw [hcs] at h
            dsimp only at h
            exact absurd h (by simp)
          | some kv =>
            rw [hcs] at h
            dsimp only at h ⊢
            by_cases hafter : kv.2 = []
            · rw [if_pos hafter] at h ⊢
              by_cases hp : (spanIndentGT i ls).1 = []
              · rw [if_pos hp] at h ⊢
                exact ih hfg' _ _ h
              · rw [if_neg hp] at h ⊢
                rcases exceptBind_ok h with ⟨a, ha, h2⟩
                rw [ih hfg' _ _ ha]
                simp only [Bind.bind, Except.bind]
                exact ih hfg' _ _ h2
            · rw [if_neg hafter] at h ⊢
              by_cases hp : (spanIndentGT i ls).1 = []
              · rw [if_pos hp] at h ⊢
                rcases exceptBind_ok h with ⟨a, ha, h2⟩
                rw [ha]
                simp only [Bind.bind, Except.bind]
                exact ih hfg' _ _ h2
              · rw [if_neg hp] at h
                exact absurd h (by simp)
        · rw [if_neg hind] at h
          exact absurd h (by simp)

end StreamTemplate

namespace StreamTemplate

theorem splitLinesAux_run : ∀ (xs : List Char), (∀ c ∈ xs, c ≠ '\n') →
    ∀ (acc r : List Char), splitLinesAux acc (xs ++ r) = splitLinesAux (xs.reverse ++ acc) r := by
  intro xs
  induction xs with
  | nil => intro _ acc r; simp
  | cons x xs ih =>
    intro h acc r
    rw [List.cons_append, splitLinesAux.eq_def]
    simp only []
    rw [if_neg (h x (List.mem_cons_self x xs)),
        ih (fun c hc => h c (List.mem_cons_of_mem x hc)) (x :: acc) r]
    simp [List.append_assoc]

theorem splitLinesAux_nl (acc r : List Char) :
    splitLinesAux acc ('\n' :: r) = acc.reverse :: splitLinesAux [] r := by
  rw [splitLinesAux.eq_def]
  simp

theorem mkLines_append : ∀ (as bs : List (List Char)),
    mkLines (as ++ bs) = mkLines as ++ mkLines bs := by
  intro as bs
  induction as with
  | nil => simp [mkLines]
  | cons a as ih =>
    by_cases h : trimChars a = []
    · simp [mkLines, h, ih]
    · simp [mkLines, h, ih]

theorem plain_no_nl {s : String} (h : isPlainScalarStr s = true) :
    ∀ c ∈ s.data, c ≠ '\n' := by
  intro c hc he
  have hp := (plain_spec s h).2.1 c hc
  subst he
  exact absurd hp (by decide)

theorem plain_trim_item {s : String} (h : isPlainScalarStr s = true) :
    trimChars (' ' :: ' ' :: '-' :: ' ' :: s.data) = '-' :: ' ' :: s.data := by
  obtain ⟨hne, hchars, _, _, _, _, _, _⟩ := plain_spec s h
  rcases List.eq_nil_or_concat s.data with h0 | ⟨ns, d, hnd⟩
  · exact absurd h0 hne
  · rw [List.concat_eq_append] at hnd
    have hd : isWsChar d = false :=
      plainChar_not_ws d (hchars d (by rw [hnd]; simp))
    unfold trimChars
    have h1 : (' ' :: ' ' :: '-' :: ' ' :: s.data).reverse
        = d :: (ns.reverse ++ [' ', '-', ' ', ' ']) := by
      rw [hnd]
      simp
    rw [h1, dropWsLead, if_neg (by simp [hd])]
    have h2 : (d :: (ns.reverse ++ [' ', '-', ' ', ' '])).reverse
        = ' ' :: ' ' :: '-' :: ' ' :: s.data := by
      rw [hnd]
      simp
    rw [h2]
    rw [dropWsLead, if_pos (by decide), dropWsLead, if_pos (by decide),
        dropWsLead, if_neg (by decide)]

theorem splitLines_items : ∀ (l : List String), (∀ s ∈ l, isPlainScalarStr s = true) →
    splitLinesAux [] ((l.map (fun s => '\n' :: ' ' :: ' ' :: '-' :: ' ' :: (s.data ++ ['\n']))).flatten ++ ['\n'])
      = (l.map (fun s => [([] : List Char), ' ' :: ' ' :: '-' :: ' ' :: s.data])).flatten ++ [[], []] := by
  intro l
  induction l with
  | nil => intro _; rfl
  | cons s t ih =>
    intro h
    have hs := h s (List.mem_cons_self s t)
    have hmid : ∀ c ∈ (' ' :: ' ' :: '-' :: ' ' :: s.data), c ≠ '\n' := by
      intro c hc
      rcases List.mem_cons.mp hc with rfl | hc
      · decide
      rcases List.mem_cons.mp hc with rfl | hc
      · decide
      rcases List.mem_cons.mp hc with rfl | hc
      · decide
      rcases List.mem_cons.mp hc with rfl | hc
      · decide
      · exact plain_no_nl hs c hc
    simp only [List.map_cons, List.flatten_cons, List.cons_append, List.append_assoc,
      List.singleton_append, List.nil_append]
    rw [splitLinesAux_nl]
    have hrun := splitLinesAux_run (' ' :: ' ' :: '-' :: ' ' :: s.data) hmid []
      ('\n' :: ((t.map (fun s => '\n' :: ' ' :: ' ' :: '-' :: ' ' :: (s.data ++ ['\n']))).flatten ++ ['\n']))
    simp only [List.cons_append, List.append_assoc, List.nil_append,
      List.singleton_append] at hrun
    rw [hrun, splitLinesAux_nl,
        ih (fun q hq => h q (List.mem_cons_of_mem s hq))]
    simp
end StreamTemplate

namespace StreamTemplate

theorem mkLines_cons (x : List Char) (rest : List (List Char)) :
    mkLines (x :: rest) = if trimChars x = [] then mkLines rest
      else ⟨countIndent x, trimChars x⟩ :: mkLines rest := by
  rw [mkLines.eq_def]

theorem mkLines_items : ∀ (l : List String), (∀ s ∈ l, isPlainScalarStr s = true) →
    mkLines ((l.map (fun s => [([] : List Char), ' ' :: ' ' :: '-' :: ' ' :: s.data])).flatten ++ [[], []])
      = l.map (fun s => (⟨2, '-' :: ' ' :: s.data⟩ : YLine)) := by
  intro l
  induction l with
  | nil => intro _; rfl
  | cons s t ih =>
    intro h
    have hs := h s (List.mem_cons_self s t)
    have htm := plain_trim_item hs
    have h0 : trimChars ([] : List Char) = [] := rfl
    have hci : countIndent (' ' :: ' ' :: '-' :: ' ' :: s.data) = 2 := rfl
    simp only [List.map_cons, List.flatten_cons, List.append_assoc, List.cons_append,
      List.nil_append]
    rw [mkLines_cons, if_pos h0, mkLines_cons, htm, hci,
      if_neg (by simp), ih (fun q hq => h q (List.mem_cons_of_mem s hq))]

theorem countIndent_plain {s : String} (h : isPlainScalarStr s = true) :
    countIndent s.data = 0 := by
  obtain ⟨hne, hchars, _⟩ := plain_spec s h
  cases hd : s.data with
  | nil => rfl
  | cons c rest =>
    have hc : c ≠ ' ' := by
      refine plainChar_ne c (hchars c (by rw [hd]; simp)) ' ' (by decide)
    rw [countIndent, if_neg hc]

theorem spanIndentGT_two : ∀ (l : List String),
    spanIndentGT 2 (l.map (fun s => (⟨2, '-' :: ' ' :: s.data⟩ : YLine))) =
      ([], l.map (fun s => (⟨2, '-' :: ' ' :: s.data⟩ : YLine))) := by
  intro l
  cases l with
  | nil => rfl
  | cons s t =>
    rw [List.map_cons, spanIndentGT, if_neg (by simp)]

theorem parseY_items : ∀ (l : List String) (acc : List DocValue) (fuel : Nat),
    (∀ s ∈ l, isPlainScalarStr s = true) →
    parseY (fuel + l.length + 1)
        (.seqLoop 2 (l.map (fun s => (⟨2, '-' :: ' ' :: s.data⟩ : YLine))) acc)
      = .ok (.seq (acc.reverse ++ l.map .str)) := by
  intro l
  induction l with
  | nil =>
    intro acc fuel _
    simp [parseY]
  | cons s t ih =>
    intro acc fuel h
    have hs := h s (List.mem_cons_self s t)
    obtain ⟨hne, hchars, hdash, _, _, _, _, _⟩ := plain_spec s hs
    have hlen : fuel + (s :: t).length + 1 = (fuel + t.length + 1) + 1 := by
      simp [List.length_cons]
      omega
    rw [hlen]
    simp only [List.map_cons]
    set F := fuel + t.length + 1 with hF
    simp only [parseY]
    rw [if_pos (by constructor <;> trivial)]
    have htail : (YLine.mk 2 ('-' :: ' ' :: s.data)).content.tail = ' ' :: s.data := rfl
    have hci : countIndent (' ' :: s.data) = countIndent s.data + 1 := by
      rw [countIndent, if_pos rfl]
    rw [htail, hci, countIndent_plain hs]
    have hdrop : (' ' :: s.data).drop (0 + 1) = s.data := by simp
    rw [hdrop, if_neg hne, spanIndentGT_two]
    rw [if_neg (by simp [hdash]), colonSplit_plain s.data hchars]
    dsimp only
    rw [scalarOf_plain s hs]
    simp only [Bind.bind, Except.bind]
    have hrest := ih (.str s :: acc) fuel (fun q hq => h q (List.mem_cons_of_mem s hq))
    rw [← hF] at hrest
    rw [hrest]
    simp

end StreamTemplate

namespace StreamTemplate

theorem spanIndentGT_zero : ∀ (l : List String),
    spanIndentGT 0 (l.map (fun s => (⟨2, '-' :: ' ' :: s.data⟩ : YLine))) =
      (l.map (fun s => (⟨2, '-' :: ' ' :: s.data⟩ : YLine)), []) := by
  intro l
  induction l with
  | nil => rfl
  | cons s t ih =>
    rw [List.map_cons, spanIndentGT, if_pos (by simp)]
    rw [ih]

theorem parseY_eachDoc (l : List String) (hne : l ≠ [])
    (hpl : ∀ s ∈ l, isPlainScalarStr s = true) :
    parseY (l.length + 4)
        (.val (⟨0, "paths:".data⟩ :: l.map (fun s => (⟨2, '-' :: ' ' :: s.data⟩ : YLine))))
      = .ok (.map [("paths", .seq (l.map .str))]) := by
  rw [show l.length + 4 = (l.length + 3) + 1 from rfl]
  generalize hG1 : l.length + 3 = G1
  simp only [parseY]
  rw [if_neg (by decide), show colonSplit "paths:".data = some ("paths".data, []) from rfl]
  dsimp only
  rw [← hG1, show l.length + 3 = (l.length + 2) + 1 from rfl]
  generalize hG2 : l.length + 2 = G2
  simp only [parseY]
  rw [if_pos trivial,
      show colonSplit ['p', 'a', 't', 'h', 's', ':'] = some ("paths".data, []) from rfl]
  dsimp only
  rw [if_pos rfl, spanIndentGT_zero]
  dsimp only
  obtain ⟨s0, t0, rfl⟩ : ∃ s0 t0, l = s0 :: t0 := by
    cases l with
    | nil => exact absurd rfl hne
    | cons a b => exact ⟨a, b, rfl⟩
  rw [if_neg (by simp)]
  have hval : parseY G2 (.val ((s0 :: t0).map (fun s => (⟨2, '-' :: ' ' :: s.data⟩ : YLine))))
      = .ok (.seq ((s0 :: t0).map .str)) := by
    rw [← hG2, show (s0 :: t0).length + 2 = ((s0 :: t0).length + 1) + 1 from rfl]
    generalize hG3 : (s0 :: t0).length + 1 = G3
    rw [List.map_cons]
    simp only [parseY]
    rw [if_pos (by trivial)]
    show parseY G3
        (.seqLoop 2 ((s0 :: t0).map (fun s => (⟨2, '-' :: ' ' :: s.data⟩ : YLine))) []) =
      Except.ok (DocValue.seq ((s0 :: t0).map DocValue.str))
    rw [← hG3, show (s0 :: t0).length + 1 = 0 + (s0 :: t0).length + 1 by omega,
        parseY_items (s0 :: t0) [] 0 hpl]
    simp
  rw [hval]
  simp only [Bind.bind, Except.bind]
  rw [← hG2, show (s0 :: t0).length + 2 = ((s0 :: t0).length + 1) + 1 from rfl]
  simp only [parseY]
  rfl

end StreamTemplate

namespace StreamTemplate

theorem yamlParse_eachDoc (l : List String) (hne : l ≠ [])
    (hpl : ∀ s ∈ l, isPlainScalarStr s = true) :
    yamlParse ("paths:\n".data ++
        ((l.map (fun s => '\n' :: ' ' :: ' ' :: '-' :: ' ' :: (s.data ++ ['\n']))).flatten ++ ['\n']))
      = .ok (.map [("paths", .seq (l.map .str))]) := by
  simp only [yamlParse]
  rw [show "paths:\n".data ++
        ((l.map (fun s => '\n' :: ' ' :: ' ' :: '-' :: ' ' :: (s.data ++ ['\n']))).flatten ++ ['\n'])
      = "paths:".data ++ ('\n' ::
        ((l.map (fun s => '\n' :: ' ' :: ' ' :: '-' :: ' ' :: (s.data ++ ['\n']))).flatten ++ ['\n']))
      from rfl]
  rw [splitLinesAux_run "paths:".data (by decide) [], splitLinesAux_nl, splitLines_items l hpl]
  simp only [List.append_nil, List.reverse_reverse]
  rw [mkLines_cons, if_neg (by decide), mkLines_items l hpl]
  rw [show countIndent "paths:".data = 0 from rfl, show trimChars "paths:".data = "paths:".data from rfl]
  refine parseY_mono (l.length + 4) ?_ _ _ (parseY_eachDoc l hne hpl)
  have hlen : ((⟨0, "paths:".data⟩ :: l.map (fun s => (⟨2, '-' :: ' ' :: s.data⟩ : YLine)))).length
      = l.length + 1 := by simp
  rw [hlen]
  omega

theorem parseTemplate_eachPaths : parseTemplate tplEachPaths.data
    = .ok [.lit "paths:\n".data,
           .iter "paths" [.lit "\n  - ".data, .hole "this", .lit "\n".data],
           .lit "\n".data] := rfl

theorem expand_eachPaths (l : List String) :
    expandNodes [("paths", .seq (l.map .str))]
        [.lit "paths:\n".data,
         .iter "paths" [.lit "\n  - ".data, .hole "this", .lit "\n".data],
         .lit "\n".data]
      = "paths:\n".data ++
          ((l.map (fun s => '\n' :: ' ' :: ' ' :: '-' :: ' ' :: (s.data ++ ['\n']))).flatten ++ ['\n']) := by
  simp [expandNodes, expandNode, lookupEnv, substFor, serializeVal, List.map_map]
  congr 1

end StreamTemplate

namespace StreamTemplate

theorem shape_each_hole (a b1 b2 c : List Char) (n : String) :
    a ++ (tagEach n).data ++ b1 ++ (ph "this").data ++ b2 ++ tagEndEach.data ++ c
      = [(a, "#each ".data ++ n.data), (b1, "this".data), (b2, "/each".data)].foldr
          (fun p acc => p.1 ++ lbrace :: lbrace :: (p.2 ++ rbrace :: rbrace :: acc)) c := by
  simp [tagEach, tagEndEach, ph, oBr, cBr, str_data_append, List.append_assoc]

theorem tokenize_each_hole (a b1 b2 c : List Char) (n : String) (hn : validName n = true)
    (ha : braceFreeChars a = true) (hb1 : braceFreeChars b1 = true)
    (hb2 : braceFreeChars b2 = true) (hc : braceFreeChars c = true) :
    tokenize (a ++ (tagEach n).data ++ b1 ++ (ph "this").data ++ b2 ++ tagEndEach.data ++ c)
      = .ok [.text a, .openEach n, .text b1, .hole "this", .text b2, .closeEach, .text c] := by
  have hseg : ∀ p ∈ [(a, "#each ".data ++ n.data), (b1, "this".data), (b2, "/each".data)],
      braceFreeChars p.1 = true ∧ (p.2.all (fun ch => ch != rbrace)) = true := by
    intro p hp
    rcases List.mem_cons.mp hp with rfl | hp2
    · refine ⟨ha, ?_⟩
      rw [List.all_append, Bool.and_eq_true]
      exact ⟨by decide, name_all_ne_rbrace hn⟩
    rcases List.mem_cons.mp hp2 with rfl | hp3
    · refine ⟨hb1, ?_⟩
      show ("this".data.all (fun ch => ch != rbrace)) = true
      decide
    rcases List.mem_cons.mp hp3 with rfl | hp4
    · refine ⟨hb2, ?_⟩
      show ("/each".data.all (fun ch => ch != rbrace)) = true
      decide
    · simp at hp4
  have hts := tokenize_segments
    [(a, "#each ".data ++ n.data), (b1, "this".data), (b2, "/each".data)] c hseg hc
  rw [shape_each_hole, hts]
  simp only [List.foldr_cons, List.foldr_nil]
  rw [classifyTag_openEach n hn, classifyTag_this, classifyTag_closeEach]

theorem parseTemplate_each_hole (a b1 b2 c : List Char) (n : String) (hn : validName n = true)
    (ha : braceFreeChars a = true) (hb1 : braceFreeChars b1 = true)
    (hb2 : braceFreeChars b2 = true) (hc : braceFreeChars c = true) :
    parseTemplate (a ++ (tagEach n).data ++ b1 ++ (ph "this").data ++ b2 ++ tagEndEach.data ++ c)
      = .ok [.lit a, .iter n [.lit b1, .hole "this", .lit b2], .lit c] := by
  unfold parseTemplate
  rw [tokenize_each_hole a b1 b2 c n hn ha hb1 hb2 hc]
  simp only [Bind.bind, Except.bind]
  simp [buildAux]

theorem expand_each_hole (env : Env) (a b1 b2 c : List Char) (n : String)
    (elems : List DocValue) (henv : lookupEnv env n = some (.seq elems)) :
    expandNodes env [.lit a, .iter n [.lit b1, .hole "this", .lit b2], .lit c]
      = a ++ ((elems.map (fun e => b1 ++ (serializeVal e ++ b2))).flatten ++ c) := by
  simp [expandNodes, expandNode, henv, substFor, lookupEnv]

/-- C4 counterexample: iterating over an empty sequence leaves the `paths`
key with an empty scalar value, not a zero-length sequence, so the rendered
value is not a sequence whose length equals the input length. -/
theorem c4_counterexample :
    createStream (seqVars []) tplEachPaths = .ok (.map [("paths", .str "")])
    ∧ ¬(createStream (seqVars []) tplEachPaths = .ok (.map [("paths", .seq [])])) := by
  constructor
  · rfl
  · intro h
    rw [show createStream (seqVars []) tplEachPaths = .ok (.map [("paths", .str "")]) from rfl]
      at h
    injection h with h2
    simp at h2

/-- C4 amended: an iteration block instantiates its body once per element of
the sequence variable, in order, with `this` bound to the element (first
conjunct, at the expanded-text level); and for every non-empty list of plain
string elements the canonical `paths` template renders a sequence with
exactly the input elements, hence of equal length (second conjunct).  For an
empty sequence the key instead carries an empty scalar. -/
theorem c4_iteration_blocks :
    (∀ (env : Env) (n : String) (a b1 b2 c : List Char) (elems : List DocValue),
      validName n = true → braceFreeChars a = true → braceFreeChars b1 = true →
      braceFreeChars b2 = true → braceFreeChars c = true →
      lookupEnv env n = some (.seq elems) →
      renderText env (a ++ (tagEach n).data ++ b1 ++ (ph "this").data ++ b2 ++ tagEndEach.data ++ c)
        = .ok (a ++ ((elems.map (fun e => b1 ++ (serializeVal e ++ b2))).flatten ++ c)))
    ∧ (∀ l : List String, l ≠ [] → (∀ s ∈ l, isPlainScalarStr s = true) →
        createStream (seqVars l) tplEachPaths = .ok (.map [("paths", .seq (l.map .str))])
        ∧ (l.map DocValue.str).length = l.length) := by
  constructor
  · intro env n a b1 b2 c elems hn ha hb1 hb2 hc henv
    unfold renderText
    rw [parseTemplate_each_hole a b1 b2 c n hn ha hb1 hb2 hc]
    simp only [Bind.bind, Except.bind]
    rw [expand_each_hole env a b1 b2 c n elems henv]
  · intro l hne hpl
    refine ⟨?_, by simp⟩
    unfold createStream
    rw [show convertVars (seqVars l) = .ok [("paths", .seq (l.map .str))] from rfl]
    simp only [Bind.bind, Except.bind]
    unfold renderText
    rw [parseTemplate_eachPaths]
    simp only [Bind.bind, Except.bind]
    rw [expand_eachPaths l]
    exact yamlParse_eachDoc l hne hpl

theorem c4_iteration_blocks_witness :
    createStream (seqVars ["/var/log/a.log"]) tplEachPaths
      = .ok (.map [("paths", .seq (["/var/log/a.log"].map .str))])
    ∧ (["/var/log/a.log"].map DocValue.str).length = ["/var/log/a.log"].length :=
  c4_iteration_blocks.2 ["/var/log/a.log"] (by decide) (by decide)

end StreamTemplate
